import Mathlib

/-!
# Lebwohl–Lasher 2D Monte Carlo simulation: verification of the core kernel

Shallow embedding of the simulation kernel in `cython_LebwohlLasher.pyx`:
the lattice initialisation `initdat`, the single-cell energy `one_energy`,
the whole-lattice energy `all_energy`, the order-parameter estimator
`get_order`, and the Metropolis stepper `MC_step`.

Modelling conventions:
* a lattice is a total function `ℤ → ℤ → ℝ`; the simulation only ever reads
  and writes indices in `[0, nmax) × [0, nmax)`;
* C `double`/`float` arithmetic is idealised as real arithmetic;
* every random draw the code consumes is passed in explicitly as a stream
  argument, so the stepper is a deterministic function of lattice state and
  draws.
-/

namespace LebwohlLasher

open Finset

/-- Python/Cython `%` on integers (the source sets no `cdivision` directive,
so Cython compiles `%` with Python semantics: the result has the sign of the
divisor).  For a positive divisor this is the true mathematical modulo, which
`Int.emod` implements for a positive right operand. -/
def pymod (a : ℤ) (n : ℕ) : ℤ := a % (n : ℤ)

/-- `setCell arr x y v` is the in-place assignment `arr[x, y] = v`. -/
def setCell (arr : ℤ → ℤ → ℝ) (x y : ℤ) (v : ℝ) : ℤ → ℤ → ℝ :=
  fun i j => if i = x ∧ j = y then v else arr i j

/-- `initdat(nmax, Ts)`: builds the initial lattice
`np.random.random_sample((nmax,nmax)) * 2.0 * np.pi`, where `rand i j` is the
uniform `[0,1)` sample drawn for position `(i,j)`.  The arguments `nmax` and
`Ts` appear exactly as in the source signature. -/
noncomputable def initdat (nmax : ℕ) (Ts : ℝ) (rand : ℤ → ℤ → ℝ) : ℤ → ℤ → ℝ :=
  fun i j => rand i j * 2.0 * Real.pi

/-- `one_energy(arr, ix, iy, nmax)`: reduced energy of the cell `(ix, iy)`,
accumulating `0.5*(1.0 - 3.0*cos(ang)**2)` for the angle difference `ang`
against each of the four periodically wrapped neighbours, in the source's
order `ixp, ixm, iyp, iym`. -/
noncomputable def one_energy (arr : ℤ → ℤ → ℝ) (ix iy : ℤ) (nmax : ℕ) : ℝ :=
  let ixp : ℤ := pymod (ix + 1) nmax
  let ixm : ℤ := pymod (ix - 1) nmax
  let iyp : ℤ := pymod (iy + 1) nmax
  let iym : ℤ := pymod (iy - 1) nmax
  0.5 * (1.0 - 3.0 * Real.cos (arr ix iy - arr ixp iy) ^ 2)
    + 0.5 * (1.0 - 3.0 * Real.cos (arr ix iy - arr ixm iy) ^ 2)
    + 0.5 * (1.0 - 3.0 * Real.cos (arr ix iy - arr ix iyp) ^ 2)
    + 0.5 * (1.0 - 3.0 * Real.cos (arr ix iy - arr ix iym) ^ 2)

/-- `all_energy(arr, nmax)`: sums `one_energy` over every cell of the lattice. -/
noncomputable def all_energy (arr : ℤ → ℤ → ℝ) (nmax : ℕ) : ℝ :=
  ∑ i in range nmax, ∑ j in range nmax, one_energy arr (i : ℤ) (j : ℤ) nmax

/-- The four periodic neighbours of `(ix, iy)`, as the spec words them:
`(i±1 mod N, j)` and `(i, j±1 mod N)`. -/
def neighbors (ix iy : ℤ) (nmax : ℕ) : List (ℤ × ℤ) :=
  [(pymod (ix + 1) nmax, iy), (pymod (ix - 1) nmax, iy),
   (ix, pymod (iy + 1) nmax), (ix, pymod (iy - 1) nmax)]

/-- The spec's formulation of `cellEnergy`: the sum, over the four periodic
neighbours `(ip, jp)` of `(i, j)`, of `0.5 * (1 - 3 cos²(θ(i,j) − θ(ip,jp)))`. -/
noncomputable def cellEnergy_spec (arr : ℤ → ℤ → ℝ) (ix iy : ℤ) (nmax : ℕ) : ℝ :=
  ((neighbors ix iy nmax).map
    (fun p => 0.5 * (1 - 3 * Real.cos (arr ix iy - arr p.1 p.2) ^ 2))).sum

/-- The director components `lab` of `get_order`: row 0 holds `cos θ`, row 1
holds `sin θ`, and row 2 keeps the zeros of `np.zeros((3, nmax, nmax))`. -/
noncomputable def lab (arr : ℤ → ℤ → ℝ) : Fin 3 → ℤ → ℤ → ℝ
  | 0, i, j => Real.cos (arr i j)
  | 1, i, j => Real.sin (arr i j)
  | 2, _, _ => 0

/-- `delta = np.eye(3)`, the 3×3 identity used as the Kronecker delta. -/
def delta : Matrix (Fin 3) (Fin 3) ℝ :=
  fun a b => if a = b then 1 else 0

/-- The order tensor of `get_order`: `Qab[a,b]` accumulates
`3*lab[a,i,j]*lab[b,i,j] - delta[a,b]` over all cells and is then divided by
`tmp = 2*nmax*nmax`. -/
noncomputable def Qab (arr : ℤ → ℤ → ℝ) (nmax : ℕ) : Matrix (Fin 3) (Fin 3) ℝ :=
  fun a b =>
    (∑ i in range nmax, ∑ j in range nmax,
      (3 * lab arr a (i : ℤ) (j : ℤ) * lab arr b (i : ℤ) (j : ℤ) - delta a b))
    / (2 * (nmax : ℝ) * (nmax : ℝ))

/-- `x` is an eigenvalue of the real 3×3 matrix `Q`: the characteristic
determinant vanishes. -/
def isEig (Q : Matrix (Fin 3) (Fin 3) ℝ) (x : ℝ) : Prop :=
  (Q - x • (1 : Matrix (Fin 3) (Fin 3) ℝ)).det = 0

/-- `get_order(arr, nmax)`.  Modelled from the library contract of the one
external call: `np.linalg.eigvalsh` returns the eigenvalues of the symmetric
matrix `Qab` in ascending order, so the returned entry `eigenvalues[2]` is
the maximum eigenvalue of `Qab`, here the supremum of its spectrum. -/
noncomputable def get_order (arr : ℤ → ℤ → ℝ) (nmax : ℕ) : ℝ :=
  sSup {x : ℝ | isEig (Qab arr nmax) x}

/-- Half-gap discriminant of the top-left 2×2 block of `Qab`: the square root
of `((Q₀₀-Q₁₁)/2)² + Q₀₁²`. -/
noncomputable def discr (arr : ℤ → ℤ → ℝ) (nmax : ℕ) : ℝ :=
  Real.sqrt (((Qab arr nmax 0 0 - Qab arr nmax 1 1) / 2) ^ 2 + Qab arr nmax 0 1 ^ 2)

/-- The larger eigenvalue of the top-left 2×2 block of `Qab`. -/
noncomputable def lamPlus (arr : ℤ → ℤ → ℝ) (nmax : ℕ) : ℝ :=
  (Qab arr nmax 0 0 + Qab arr nmax 1 1) / 2 + discr arr nmax

/-- The smaller eigenvalue of the top-left 2×2 block of `Qab`. -/
noncomputable def lamMinus (arr : ℤ → ℤ → ℝ) (nmax : ℕ) : ℝ :=
  (Qab arr nmax 0 0 + Qab arr nmax 1 1) / 2 - discr arr nmax

/-- The mutable state threaded through `MC_step`: the lattice `arr` plus the
C locals `accept, ix, iy, ang, en0, en1`, which survive across loop
iterations (the `for`/`else` clause reads the values left by the last inner
iteration). -/
structure MCState where
  arr : ℤ → ℤ → ℝ
  accept : ℤ
  ix : ℤ
  iy : ℤ
  ang : ℝ
  en0 : ℝ
  en1 : ℝ

/-- The body of the inner `for j` loop of `MC_step`: draw fresh arrays
`xran, yran, aran` and read their `[i,j]` entries, measure `en0`, apply the
perturbation in place, measure `en1`, and increment `accept` when
`en1 <= en0`.  (When `en1 > en0` nothing else happens here: the Metropolis
test lives in the `for`/`else` clause of the inner loop.) -/
noncomputable def MC_attempt (nmax : ℕ) (xran yran : ℕ → ℕ → ℕ) (aran : ℕ → ℕ → ℝ)
    (i j : ℕ) (s : MCState) : MCState :=
  let ix : ℤ := (xran i j : ℤ)
  let iy : ℤ := (yran i j : ℤ)
  let ang : ℝ := aran i j
  let en0 := one_energy s.arr ix iy nmax
  let arr1 := setCell s.arr ix iy (s.arr ix iy + ang)
  let en1 := one_energy arr1 ix iy nmax
  { arr := arr1
    accept := if en1 ≤ en0 then s.accept + 1 else s.accept
    ix := ix
    iy := iy
    ang := ang
    en0 := en0
    en1 := en1 }

/-- One iteration of the outer `for i` loop of `MC_step`: the inner loop over
`j`, followed by the `else:` clause of that inner `for` statement.  A Python
`for`/`else` body runs exactly once, after the loop completes without
`break`, so the Boltzmann comparison `exp(-(en1-en0)/Ts) >= uniform` executes
once per outer iteration, on the locals left over from the row's final
attempt; `urand i` is the uniform draw it consumes. -/
noncomputable def MC_row (nmax : ℕ) (Ts : ℝ) (xran yran : ℕ → ℕ → ℕ)
    (aran : ℕ → ℕ → ℝ) (urand : ℕ → ℝ) (s : MCState) (i : ℕ) : MCState :=
  let s1 := (List.range nmax).foldl
    (fun t j => MC_attempt nmax xran yran aran i j t) s
  let boltz := Real.exp (-(s1.en1 - s1.en0) / Ts)
  if boltz ≥ urand i then
    { s1 with accept := s1.accept + 1 }
  else
    { s1 with arr := setCell s1.arr s1.ix s1.iy (s1.arr s1.ix s1.iy - s1.ang) }

/-- `MC_step(arr, Ts, nmax)` with every random draw passed explicitly:
`xran i j`, `yran i j`, `aran i j` are the `[i,j]` entries of the arrays
freshly drawn during attempt `(i,j)` (their remaining entries are never
read), and `urand i` is the uniform `[0,1)` draw consumed by the `for`/`else`
Metropolis test of outer iteration `i`.  Returns the pair of the value
`accept/(nmax*nmax)` returned by the source and the final lattice. -/
noncomputable def MC_step (arr : ℤ → ℤ → ℝ) (Ts : ℝ) (nmax : ℕ)
    (xran yran : ℕ → ℕ → ℕ) (aran : ℕ → ℕ → ℝ) (urand : ℕ → ℝ) :
    ℝ × (ℤ → ℤ → ℝ) :=
  let s := (List.range nmax).foldl (MC_row nmax Ts xran yran aran urand)
    { arr := arr, accept := 0, ix := 0, iy := 0, ang := 0, en0 := 0, en1 := 0 }
  ((s.accept : ℝ) / ((nmax : ℝ) * (nmax : ℝ)), s.arr)

/-- A constant lattice has cell energy `-4`: all four angle differences vanish
and each bond term is `0.5 * (1 - 3) = -1`. -/
lemma one_energy_const (c : ℝ) (ix iy : ℤ) (nmax : ℕ) :
    one_energy (fun _ _ => c) ix iy nmax = -4 := by
  simp [one_energy]
  norm_num

/-- Adding `2π` to both sides of an angle difference, to one side, or to
neither, does not change `cos²` of the difference. -/
lemma cos_sq_shift (u v : ℝ) (h : u = v ∨ u = v + 2 * Real.pi ∨ u = v - 2 * Real.pi) :
    Real.cos u ^ 2 = Real.cos v ^ 2 := by
  rcases h with h | h | h <;> subst h
  · rfl
  · rw [Real.cos_add_two_pi]
  · rw [Real.cos_sub_two_pi]

end LebwohlLasher

namespace LebwohlLasher

open Finset

/-- **C3.** `one_energy(arr, i, j, nmax)` is exactly the sum, over the four
periodic neighbours `(ip, jp)` of `(i, j)`, of the term
`0.5 * (1 - 3 cos²(θ(i,j) − θ(ip,jp)))`; being a total function it has no
failure modes. -/
theorem one_energy_eq_neighbor_sum (arr : ℤ → ℤ → ℝ) (ix iy : ℤ) (nmax : ℕ) :
    one_energy arr ix iy nmax = cellEnergy_spec arr ix iy nmax := by
  simp [one_energy, cellEnergy_spec, neighbors]
  norm_num
  ring

/-- **C4.** `all_energy` is the sum of `one_energy` over every cell, with no
halving of the doubly counted bonds; on a perfectly aligned lattice (all
angles equal) it evaluates to `-4·N²`, and in particular to `-64` for `N = 4`. -/
theorem all_energy_sum_and_aligned :
    (∀ (arr : ℤ → ℤ → ℝ) (nmax : ℕ),
      all_energy arr nmax =
        ∑ i in range nmax, ∑ j in range nmax, one_energy arr (i : ℤ) (j : ℤ) nmax) ∧
    (∀ (nmax : ℕ) (c : ℝ),
      all_energy (fun _ _ => c) nmax = -4 * (nmax : ℝ) ^ 2) ∧
    all_energy (fun _ _ => (0 : ℝ)) 4 = -64 := by
  have key : ∀ (nmax : ℕ) (c : ℝ),
      all_energy (fun _ _ => c) nmax = -4 * (nmax : ℝ) ^ 2 := by
    intro nmax c
    unfold all_energy
    simp [one_energy_const]
    ring
  refine ⟨fun arr nmax => rfl, key, ?_⟩
  rw [key 4 0]
  norm_num

/-- **C7.** Every neighbour index used by `one_energy` is a true mathematical
modulo of `i±1` or `j±1` by `N`: the result lies in `[0, N)` even when the
operand is negative (Cython compiles `%` with Python semantics since the
source sets no `cdivision` directive), so every neighbour access of every
cell addresses an in-range lattice entry. -/
theorem neighbor_indices_in_range (ix iy : ℤ) (nmax : ℕ) (hn : 0 < nmax) :
    (0 ≤ pymod (ix + 1) nmax ∧ pymod (ix + 1) nmax < nmax) ∧
    (0 ≤ pymod (ix - 1) nmax ∧ pymod (ix - 1) nmax < nmax) ∧
    (0 ≤ pymod (iy + 1) nmax ∧ pymod (iy + 1) nmax < nmax) ∧
    (0 ≤ pymod (iy - 1) nmax ∧ pymod (iy - 1) nmax < nmax) := by
  have hpos : (0 : ℤ) < (nmax : ℤ) := by exact_mod_cast hn
  have hne : (nmax : ℤ) ≠ 0 := ne_of_gt hpos
  refine ⟨⟨?_, ?_⟩, ⟨?_, ?_⟩, ⟨?_, ?_⟩, ⟨?_, ?_⟩⟩ <;>
    first
      | exact Int.emod_nonneg _ hne
      | exact Int.emod_lt_of_pos _ hpos

/-- Witness for C7 at a boundary cell: for `N = 4` and `(i, j) = (0, 0)` the
operands `i - 1` and `j - 1` are negative, and all four wrapped indices land
in `[0, 4)`. -/
theorem neighbor_indices_in_range_witness :
    (0 < 4) ∧
    ((0 ≤ pymod (0 + 1) 4 ∧ pymod (0 + 1) 4 < 4) ∧
     (0 ≤ pymod (0 - 1) 4 ∧ pymod (0 - 1) 4 < 4) ∧
     (0 ≤ pymod (0 + 1) 4 ∧ pymod (0 + 1) 4 < 4) ∧
     (0 ≤ pymod (0 - 1) 4 ∧ pymod (0 - 1) 4 < 4)) :=
  ⟨by decide, neighbor_indices_in_range 0 0 4 (by decide)⟩

/-- Shifting the angle stored at one cell `(x, y)` by `2π` changes each angle
difference read by `one_energy` by `0`, `+2π` or `-2π`, so `cos²` of the
difference is unchanged. -/
lemma cos_sq_setCell_shift (arr : ℤ → ℤ → ℝ) (x y a b c d : ℤ) :
    Real.cos (setCell arr x y (arr x y + 2 * Real.pi) a b
      - setCell arr x y (arr x y + 2 * Real.pi) c d) ^ 2
    = Real.cos (arr a b - arr c d) ^ 2 := by
  unfold setCell
  by_cases h1 : a = x ∧ b = y <;> by_cases h2 : c = x ∧ d = y
  · rw [if_pos h1, if_pos h2]
    obtain ⟨rfl, rfl⟩ := h1
    obtain ⟨rfl, rfl⟩ := h2
    simp
  · rw [if_pos h1, if_neg h2]
    obtain ⟨rfl, rfl⟩ := h1
    exact cos_sq_shift _ _ (Or.inr (Or.inl (by ring)))
  · rw [if_neg h1, if_pos h2]
    obtain ⟨rfl, rfl⟩ := h2
    exact cos_sq_shift _ _ (Or.inr (Or.inr (by ring)))
  · rw [if_neg h1, if_neg h2]

/-- Negating both angles negates their difference, which `cos²` ignores. -/
lemma cos_sq_neg_diff (u v : ℝ) : Real.cos (-u - -v) ^ 2 = Real.cos (u - v) ^ 2 := by
  rw [show -u - -v = -(u - v) by ring, Real.cos_neg]

/-- **C9.** `one_energy` is invariant under adding `2π` to any single angle of
the lattice, and under negating every angle of the lattice simultaneously. -/
theorem one_energy_symmetries :
    (∀ (arr : ℤ → ℤ → ℝ) (x y ix iy : ℤ) (nmax : ℕ),
      one_energy (setCell arr x y (arr x y + 2 * Real.pi)) ix iy nmax =
        one_energy arr ix iy nmax) ∧
    (∀ (arr : ℤ → ℤ → ℝ) (ix iy : ℤ) (nmax : ℕ),
      one_energy (fun i j => -arr i j) ix iy nmax = one_energy arr ix iy nmax) := by
  constructor
  · intro arr x y ix iy nmax
    simp only [one_energy, cos_sq_setCell_shift]
  · intro arr ix iy nmax
    simp only [one_energy, cos_sq_neg_diff]

lemma lab_zero (arr : ℤ → ℤ → ℝ) (i j : ℤ) : lab arr 0 i j = Real.cos (arr i j) := rfl

lemma lab_one (arr : ℤ → ℤ → ℝ) (i j : ℤ) : lab arr 1 i j = Real.sin (arr i j) := rfl

lemma lab_two (arr : ℤ → ℤ → ℝ) (i j : ℤ) : lab arr 2 i j = 0 := rfl

lemma delta_symm (a b : Fin 3) : delta a b = delta b a := by
  unfold delta
  by_cases h : a = b
  · subst h; rfl
  · rw [if_neg h, if_neg (Ne.symm h)]

/-- The order tensor is symmetric entry by entry. -/
lemma Qab_symm (arr : ℤ → ℤ → ℝ) (nmax : ℕ) (a b : Fin 3) :
    Qab arr nmax a b = Qab arr nmax b a := by
  unfold Qab
  congr 1
  refine Finset.sum_congr rfl fun i _ => Finset.sum_congr rfl fun j _ => ?_
  rw [delta_symm]
  ring

/-- Off-diagonal entries of the third row vanish: row 2 of `lab` is zero and
the Kronecker delta vanishes off the diagonal. -/
lemma Qab_2b (arr : ℤ → ℤ → ℝ) (nmax : ℕ) (b : Fin 3) (hb : (2 : Fin 3) ≠ b) :
    Qab arr nmax 2 b = 0 := by
  unfold Qab delta
  simp [lab_two, hb]

/-- The bottom-right entry of the order tensor: each cell contributes
`3·0·0 - 1`, so the normalized entry is `-1/2` whenever the lattice is
non-empty. -/
lemma Qab_22 (arr : ℤ → ℤ → ℝ) (nmax : ℕ) (hn : 0 < nmax) :
    Qab arr nmax 2 2 = -(1/2) := by
  have hne : ((nmax : ℝ)) ≠ 0 := Nat.cast_ne_zero.mpr hn.ne'
  unfold Qab delta
  simp [lab_two, Finset.sum_const, Finset.card_range]
  field_simp
  ring

/-- The top-left 2×2 block of the order tensor has trace `1/2`:
`(3cos² - 1) + (3sin² - 1) = 1` per cell. -/
lemma Qab_00_add_11 (arr : ℤ → ℤ → ℝ) (nmax : ℕ) (hn : 0 < nmax) :
    Qab arr nmax 0 0 + Qab arr nmax 1 1 = 1/2 := by
  have hne : ((nmax : ℝ)) ≠ 0 := Nat.cast_ne_zero.mpr hn.ne'
  unfold Qab
  rw [div_add_div_same]
  have hsum : (∑ i in range nmax, ∑ j in range nmax,
        (3 * lab arr 0 (i : ℤ) (j : ℤ) * lab arr 0 (i : ℤ) (j : ℤ) - delta 0 0))
      + (∑ i in range nmax, ∑ j in range nmax,
        (3 * lab arr 1 (i : ℤ) (j : ℤ) * lab arr 1 (i : ℤ) (j : ℤ) - delta 1 1))
      = (nmax : ℝ) * nmax := by
    rw [← Finset.sum_add_distrib]
    have hrow : ∀ i ∈ range nmax,
        (∑ j in range nmax,
          (3 * lab arr 0 (i : ℤ) (j : ℤ) * lab arr 0 (i : ℤ) (j : ℤ) - delta 0 0))
        + (∑ j in range nmax,
          (3 * lab arr 1 (i : ℤ) (j : ℤ) * lab arr 1 (i : ℤ) (j : ℤ) - delta 1 1))
        = (nmax : ℝ) := by
      intro i _
      rw [← Finset.sum_add_distrib]
      have hcell : ∀ j ∈ range nmax,
          (3 * lab arr 0 (i : ℤ) (j : ℤ) * lab arr 0 (i : ℤ) (j : ℤ) - delta 0 0)
          + (3 * lab arr 1 (i : ℤ) (j : ℤ) * lab arr 1 (i : ℤ) (j : ℤ) - delta 1 1)
          = 1 := by
        intro j _
        rw [lab_zero, lab_one]
        have h := Real.sin_sq_add_cos_sq (arr (i : ℤ) (j : ℤ))
        simp [delta]
        nlinarith [h]
      rw [Finset.sum_congr rfl hcell]
      simp [Finset.sum_const, Finset.card_range]
    rw [Finset.sum_congr rfl hrow]
    simp [Finset.sum_const, Finset.card_range]
  rw [hsum]
  field_simp
  ring

/-- The characteristic determinant of the order tensor factors through its
block structure: the zero third row/column (off the diagonal) splits off the
`Q₂₂ - x` factor. -/
lemma det_charmat (arr : ℤ → ℤ → ℝ) (nmax : ℕ) (x : ℝ) :
    (Qab arr nmax - x • (1 : Matrix (Fin 3) (Fin 3) ℝ)).det =
      ((Qab arr nmax 0 0 - x) * (Qab arr nmax 1 1 - x) - Qab arr nmax 0 1 ^ 2) *
        (Qab arr nmax 2 2 - x) := by
  have h02 : Qab arr nmax 0 2 = 0 := by
    rw [Qab_symm]; exact Qab_2b arr nmax 0 (by decide)
  have h12 : Qab arr nmax 1 2 = 0 := by
    rw [Qab_symm]; exact Qab_2b arr nmax 1 (by decide)
  have h20 : Qab arr nmax 2 0 = 0 := Qab_2b arr nmax 0 (by decide)
  have h21 : Qab arr nmax 2 1 = 0 := Qab_2b arr nmax 1 (by decide)
  have h10 : Qab arr nmax 1 0 = Qab arr nmax 0 1 := Qab_symm arr nmax 1 0
  rw [Matrix.det_fin_three]
  simp only [Matrix.sub_apply, Matrix.smul_apply, Matrix.one_apply, smul_eq_mul]
  simp +decide [h02, h12, h20, h21, h10]
  ring

/-- The quadratic factor of the characteristic polynomial splits at
`lamPlus` and `lamMinus`. -/
lemma quadratic_factor (arr : ℤ → ℤ → ℝ) (nmax : ℕ) (x : ℝ) :
    (Qab arr nmax 0 0 - x) * (Qab arr nmax 1 1 - x) - Qab arr nmax 0 1 ^ 2 =
      (lamPlus arr nmax - x) * (lamMinus arr nmax - x) := by
  have hs : discr arr nmax ^ 2 =
      ((Qab arr nmax 0 0 - Qab arr nmax 1 1) / 2) ^ 2 + Qab arr nmax 0 1 ^ 2 :=
    Real.sq_sqrt (by positivity)
  unfold lamPlus lamMinus
  linear_combination hs

/-- The spectrum of the order tensor is exactly `{lamPlus, lamMinus, Q₂₂}`. -/
lemma isEig_iff (arr : ℤ → ℤ → ℝ) (nmax : ℕ) (x : ℝ) :
    isEig (Qab arr nmax) x ↔
      x = lamPlus arr nmax ∨ x = lamMinus arr nmax ∨ x = Qab arr nmax 2 2 := by
  unfold isEig
  rw [det_charmat, quadratic_factor, mul_eq_zero, mul_eq_zero]
  constructor
  · rintro ((h | h) | h)
    · exact Or.inl (sub_eq_zero.mp h).symm
    · exact Or.inr (Or.inl (sub_eq_zero.mp h).symm)
    · exact Or.inr (Or.inr (sub_eq_zero.mp h).symm)
  · rintro (rfl | rfl | rfl)
    · exact Or.inl (Or.inl (sub_self _))
    · exact Or.inl (Or.inr (sub_self _))
    · exact Or.inr (sub_self _)

/-- On a non-empty lattice `lamPlus` is the greatest eigenvalue of the order
tensor: it dominates `lamMinus` because the discriminant is non-negative, and
it dominates `Q₂₂ = -1/2` because the 2×2 block has trace `1/2`. -/
lemma isGreatest_spectrum (arr : ℤ → ℤ → ℝ) (nmax : ℕ) (hn : 0 < nmax) :
    IsGreatest {x : ℝ | isEig (Qab arr nmax) x} (lamPlus arr nmax) := by
  have htr := Qab_00_add_11 arr nmax hn
  have h22 := Qab_22 arr nmax hn
  have hd : 0 ≤ discr arr nmax := Real.sqrt_nonneg _
  constructor
  · show isEig (Qab arr nmax) (lamPlus arr nmax)
    rw [isEig_iff]
    exact Or.inl rfl
  · intro x hx
    rw [Set.mem_setOf_eq, isEig_iff] at hx
    rcases hx with rfl | rfl | rfl
    · exact le_refl _
    · unfold lamPlus lamMinus
      linarith
    · rw [h22]
      unfold lamPlus
      linarith

/-- On a non-empty lattice, `get_order` returns `lamPlus`. -/
lemma get_order_eq_lamPlus (arr : ℤ → ℤ → ℝ) (nmax : ℕ) (hn : 0 < nmax) :
    get_order arr nmax = lamPlus arr nmax :=
  (isGreatest_spectrum arr nmax hn).csSup_eq

/-- Triangle inequality for lattice sums of unit phasors: the squared length
of `(∑ cos θᵢⱼ, ∑ sin θᵢⱼ)` is at most `(N²)²`. -/
lemma sum_cos_sq_add_sum_sin_sq_le (θ : ℤ → ℤ → ℝ) (nmax : ℕ) :
    (∑ i in range nmax, ∑ j in range nmax, Real.cos (θ (i : ℤ) (j : ℤ))) ^ 2 +
      (∑ i in range nmax, ∑ j in range nmax, Real.sin (θ (i : ℤ) (j : ℤ))) ^ 2 ≤
      ((nmax : ℝ) * nmax) ^ 2 := by
  set z : ℂ := ∑ i in range nmax, ∑ j in range nmax,
      Complex.exp ((θ (i : ℤ) (j : ℤ) : ℂ) * Complex.I) with hz
  have hre : z.re = ∑ i in range nmax, ∑ j in range nmax, Real.cos (θ (i : ℤ) (j : ℤ)) := by
    rw [hz, Complex.re_sum]
    refine Finset.sum_congr rfl fun i _ => ?_
    rw [Complex.re_sum]
    exact Finset.sum_congr rfl fun j _ => Complex.exp_ofReal_mul_I_re _
  have him : z.im = ∑ i in range nmax, ∑ j in range nmax, Real.sin (θ (i : ℤ) (j : ℤ)) := by
    rw [hz, Complex.im_sum]
    refine Finset.sum_congr rfl fun i _ => ?_
    rw [Complex.im_sum]
    exact Finset.sum_congr rfl fun j _ => Complex.exp_ofReal_mul_I_im _
  have habs : Complex.abs z ≤ (nmax : ℝ) * nmax := by
    have h1 : Complex.abs z ≤ ∑ i in range nmax, ∑ j in range nmax,
        Complex.abs (Complex.exp ((θ (i : ℤ) (j : ℤ) : ℂ) * Complex.I)) := by
      refine le_trans (Complex.abs.sum_le _ _) ?_
      exact Finset.sum_le_sum fun i _ => Complex.abs.sum_le _ _
    calc Complex.abs z
        ≤ ∑ i in range nmax, ∑ j in range nmax,
            Complex.abs (Complex.exp ((θ (i : ℤ) (j : ℤ) : ℂ) * Complex.I)) := h1
      _ = (nmax : ℝ) * nmax := by
          simp [Complex.abs_exp_ofReal_mul_I, Finset.sum_const, Finset.card_range]
  have hsq : z.re ^ 2 + z.im ^ 2 = Complex.abs z ^ 2 := by
    rw [Complex.sq_abs, Complex.normSq_apply]
    ring
  rw [← hre, ← him, hsq]
  exact pow_le_pow_left₀ (Complex.abs.nonneg z) habs 2

/-- The gap `Q₀₀ - Q₁₁` of the order tensor, as a lattice sum of `cos 2θ`. -/
lemma Qab_00_sub_11 (arr : ℤ → ℤ → ℝ) (nmax : ℕ) :
    Qab arr nmax 0 0 - Qab arr nmax 1 1 =
      (3 * ∑ i in range nmax, ∑ j in range nmax, Real.cos (2 * arr (i : ℤ) (j : ℤ)))
        / (2 * (nmax : ℝ) * nmax) := by
  unfold Qab
  rw [div_sub_div_same]
  congr 1
  rw [Finset.mul_sum, ← Finset.sum_sub_distrib]
  refine Finset.sum_congr rfl fun i _ => ?_
  rw [Finset.mul_sum, ← Finset.sum_sub_distrib]
  refine Finset.sum_congr rfl fun j _ => ?_
  rw [lab_zero, lab_one]
  have h := Real.cos_two_mul' (arr (i : ℤ) (j : ℤ))
  simp [delta]
  linear_combination (-3 : ℝ) * h

/-- The off-diagonal entry `Q₀₁` of the order tensor, as a lattice sum of
`sin 2θ`. -/
lemma Qab_01_eq (arr : ℤ → ℤ → ℝ) (nmax : ℕ) :
    Qab arr nmax 0 1 =
      ((3 / 2) * ∑ i in range nmax, ∑ j in range nmax, Real.sin (2 * arr (i : ℤ) (j : ℤ)))
        / (2 * (nmax : ℝ) * nmax) := by
  unfold Qab
  congr 1
  rw [Finset.mul_sum]
  refine Finset.sum_congr rfl fun i _ => ?_
  rw [Finset.mul_sum]
  refine Finset.sum_congr rfl fun j _ => ?_
  rw [lab_zero, lab_one]
  have h := Real.sin_two_mul (arr (i : ℤ) (j : ℤ))
  simp [delta]
  linear_combination (-(3 / 2) : ℝ) * h

/-- The discriminant of the 2×2 block never exceeds `3/4`: the phasor sums
`∑ cos 2θ` and `∑ sin 2θ` have joint length at most `N²`. -/
lemma discr_le_three_quarters (arr : ℤ → ℤ → ℝ) (nmax : ℕ) (hn : 0 < nmax) :
    discr arr nmax ≤ 3 / 4 := by
  have hne : ((nmax : ℝ)) ≠ 0 := Nat.cast_ne_zero.mpr hn.ne'
  have hA := Qab_00_sub_11 arr nmax
  have hB := Qab_01_eq arr nmax
  have hbound := sum_cos_sq_add_sum_sin_sq_le (fun i j => 2 * arr i j) nmax
  set A := ∑ i in range nmax, ∑ j in range nmax, Real.cos (2 * arr (i : ℤ) (j : ℤ)) with hA0
  set B := ∑ i in range nmax, ∑ j in range nmax, Real.sin (2 * arr (i : ℤ) (j : ℤ)) with hB0
  unfold discr
  rw [show (3 : ℝ) / 4 = Real.sqrt ((3 / 4) ^ 2) from
    (Real.sqrt_sq (by norm_num)).symm]
  apply Real.sqrt_le_sqrt
  rw [hA, hB]
  have hkey : ((3 * A / (2 * (nmax : ℝ) * nmax)) / 2) ^ 2
      + ((3 / 2 * B) / (2 * (nmax : ℝ) * nmax)) ^ 2
      = 9 * (A ^ 2 + B ^ 2) / (16 * ((nmax : ℝ) * nmax) ^ 2) := by
    field_simp
    ring
  rw [hkey]
  rw [div_le_iff₀ (by positivity)]
  nlinarith [hbound]

/-- `Q₀₀` on the all-`c` lattice. -/
lemma Qab_const_00 (c : ℝ) (nmax : ℕ) (hn : 0 < nmax) :
    Qab (fun _ _ => c) nmax 0 0 = (3 * Real.cos c ^ 2 - 1) / 2 := by
  have hne : ((nmax : ℝ)) ≠ 0 := Nat.cast_ne_zero.mpr hn.ne'
  unfold Qab delta
  simp [lab_zero, Finset.sum_const, Finset.card_range]
  field_simp
  ring

/-- `Q₁₁` on the all-`c` lattice. -/
lemma Qab_const_11 (c : ℝ) (nmax : ℕ) (hn : 0 < nmax) :
    Qab (fun _ _ => c) nmax 1 1 = (3 * Real.sin c ^ 2 - 1) / 2 := by
  have hne : ((nmax : ℝ)) ≠ 0 := Nat.cast_ne_zero.mpr hn.ne'
  unfold Qab delta
  simp [lab_one, Finset.sum_const, Finset.card_range]
  field_simp
  ring

/-- `Q₀₁` on the all-`c` lattice. -/
lemma Qab_const_01 (c : ℝ) (nmax : ℕ) (hn : 0 < nmax) :
    Qab (fun _ _ => c) nmax 0 1 = 3 * Real.cos c * Real.sin c / 2 := by
  have hne : ((nmax : ℝ)) ≠ 0 := Nat.cast_ne_zero.mpr hn.ne'
  unfold Qab delta
  simp [lab_zero, lab_one, Finset.sum_const, Finset.card_range]
  field_simp
  ring

/-- On a perfectly aligned lattice the discriminant is exactly `3/4`. -/
lemma discr_const (c : ℝ) (nmax : ℕ) (hn : 0 < nmax) :
    discr (fun _ _ => c) nmax = 3 / 4 := by
  unfold discr
  rw [Qab_const_00 c nmax hn, Qab_const_11 c nmax hn, Qab_const_01 c nmax hn]
  have hpy := Real.sin_sq_add_cos_sq c
  have hin : (((3 * Real.cos c ^ 2 - 1) / 2 - (3 * Real.sin c ^ 2 - 1) / 2) / 2) ^ 2
      + (3 * Real.cos c * Real.sin c / 2) ^ 2 = (3 / 4 : ℝ) ^ 2 := by
    linear_combination (9 / 16 * (Real.sin c ^ 2 + Real.cos c ^ 2 + 1)) * hpy
  rw [hin]
  exact Real.sqrt_sq (by norm_num)

/-- **C5.** `get_order` accumulates `Qab[a,b] += 3·d_a·d_b − δ_ab` over all
cells with director `d = (cos θ, sin θ, 0)`, divides every entry by `2·N²`,
and returns the largest of the eigenvalues of the resulting symmetric 3×3
matrix: the returned value is an eigenvalue and dominates every eigenvalue. -/
theorem get_order_is_max_eigenvalue (arr : ℤ → ℤ → ℝ) (nmax : ℕ) (hn : 0 < nmax) :
    (∀ a b : Fin 3, Qab arr nmax a b =
      (∑ i in range nmax, ∑ j in range nmax,
        (3 * lab arr a (i : ℤ) (j : ℤ) * lab arr b (i : ℤ) (j : ℤ) - delta a b))
      / (2 * (nmax : ℝ) * (nmax : ℝ))) ∧
    isEig (Qab arr nmax) (get_order arr nmax) ∧
    (∀ x : ℝ, isEig (Qab arr nmax) x → x ≤ get_order arr nmax) := by
  have hg := isGreatest_spectrum arr nmax hn
  have he : get_order arr nmax = lamPlus arr nmax := hg.csSup_eq
  refine ⟨fun a b => rfl, ?_, ?_⟩
  · rw [he]
    exact hg.1
  · intro x hx
    rw [he]
    exact hg.2 hx

/-- Witness for C5 on the 1×1 zero lattice: the returned order parameter is
an eigenvalue of its order tensor. -/
theorem get_order_is_max_eigenvalue_witness :
    (0 < 1) ∧ isEig (Qab (fun _ _ => (0 : ℝ)) 1) (get_order (fun _ _ => (0 : ℝ)) 1) :=
  ⟨by decide, (get_order_is_max_eigenvalue (fun _ _ => (0 : ℝ)) 1 (by decide)).2.1⟩

/-- **C6, counterexample.** The claim "the third row and third column of the
order tensor are identically zero, including `Qab[2,2]`" fails on the code:
on the 1×1 zero lattice the cell contributes `3·0·0 − δ₂₂ = -1`, so the
normalized diagonal entry `Qab[2,2]` is `-1/2`, not `0`. -/
theorem Qab_22_nonzero_counterexample :
    ¬ (Qab (fun _ _ => (0 : ℝ)) 1 2 2 = 0) := by
  rw [Qab_22 (fun _ _ => (0 : ℝ)) 1 (by norm_num)]
  norm_num

/-- **C6, amended.** For every lattice state on a non-empty lattice the order
tensor is symmetric and traceless, the off-diagonal entries of its third row
and third column vanish, and the diagonal entry `Qab[2,2]` equals `-1/2`
(not `0`: tracelessness forces it to balance the 2×2 block's trace `1/2`). -/
theorem Qab_invariants (arr : ℤ → ℤ → ℝ) (nmax : ℕ) (hn : 0 < nmax) :
    (∀ a b : Fin 3, Qab arr nmax a b = Qab arr nmax b a) ∧
    Qab arr nmax 0 0 + Qab arr nmax 1 1 + Qab arr nmax 2 2 = 0 ∧
    Qab arr nmax 0 2 = 0 ∧ Qab arr nmax 2 0 = 0 ∧
    Qab arr nmax 1 2 = 0 ∧ Qab arr nmax 2 1 = 0 ∧
    Qab arr nmax 2 2 = -(1/2) := by
  have h22 := Qab_22 arr nmax hn
  have htr := Qab_00_add_11 arr nmax hn
  refine ⟨Qab_symm arr nmax, by rw [h22]; linarith, ?_, ?_, ?_, ?_, h22⟩
  · rw [Qab_symm]
    exact Qab_2b arr nmax 0 (by decide)
  · exact Qab_2b arr nmax 0 (by decide)
  · rw [Qab_symm]
    exact Qab_2b arr nmax 1 (by decide)
  · exact Qab_2b arr nmax 1 (by decide)

/-- Witness for the amended C6 on the 1×1 zero lattice. -/
theorem Qab_invariants_witness :
    (0 < 1) ∧ Qab (fun _ _ => (0 : ℝ)) 1 2 2 = -(1/2) :=
  ⟨by decide, (Qab_invariants (fun _ _ => (0 : ℝ)) 1 (by decide)).2.2.2.2.2.2⟩

/-- **C8.** On every non-empty lattice the order parameter returned by
`get_order` is `1` when the lattice is perfectly aligned (all angles equal),
and in general lies in `[0, 1]`. -/
theorem get_order_range :
    (∀ (c : ℝ) (nmax : ℕ), 0 < nmax → get_order (fun _ _ => c) nmax = 1) ∧
    (∀ (arr : ℤ → ℤ → ℝ) (nmax : ℕ), 0 < nmax →
      0 ≤ get_order arr nmax ∧ get_order arr nmax ≤ 1) := by
  constructor
  · intro c nmax hn
    rw [get_order_eq_lamPlus _ _ hn]
    unfold lamPlus
    rw [Qab_00_add_11 _ _ hn, discr_const c nmax hn]
    norm_num
  · intro arr nmax hn
    rw [get_order_eq_lamPlus _ _ hn]
    have htr := Qab_00_add_11 arr nmax hn
    have hd0 : 0 ≤ discr arr nmax := Real.sqrt_nonneg _
    have hd1 := discr_le_three_quarters arr nmax hn
    unfold lamPlus
    constructor <;> linarith

/-- Witness for C8: the 1×1 lattice with angle 0 is aligned and its order
parameter is exactly 1. -/
theorem get_order_range_witness :
    (0 < 1) ∧ get_order (fun _ _ => (0 : ℝ)) 1 = 1 :=
  ⟨by decide, get_order_range.1 0 1 (by decide)⟩

/-- **C1, failing evaluation.** On a 2×2 all-zero lattice at `Ts = 1`, with
attempt `(0,0)` targeting cell `(0,0)` with perturbation `π/2` (raising the
cell energy from `-4` to `2`) and all later attempts targeting cell `(1,1)`
with perturbation `0`, with every uniform draw equal to `9/10`: the final
lattice still holds `π/2` at `(0,0)`.  The energy-raising perturbation
survives without any acceptance decision — the `for`/`else` Metropolis test
runs only on each row's last attempt — even though the Boltzmann factor
`exp(-(en1-en0)/Ts) = exp(-6)` is below every available uniform draw, so the
claimed per-attempt test would have rejected and reverted it. -/
theorem MC_step_keeps_unreverted_energy_raise :
    ((MC_step (fun _ _ => 0) 1 2
        (fun i j => if i = 0 ∧ j = 0 then 0 else 1)
        (fun i j => if i = 0 ∧ j = 0 then 0 else 1)
        (fun i j => if i = 0 ∧ j = 0 then Real.pi / 2 else 0)
        (fun _ => 9/10)).2) 0 0 = Real.pi / 2 ∧
    Real.exp (-(2 - (-4)) / 1) < 9/10 ∧ Real.pi / 2 ≠ 0 := by
  refine ⟨?_, ?_, ?_⟩
  · simp only [MC_step, MC_row, MC_attempt, List.range_succ, List.range_zero,
      List.foldl_cons, List.foldl_nil, List.nil_append, List.cons_append]
    norm_num [setCell, one_energy, pymod, Real.cos_pi_div_two, Real.cos_zero,
      Real.exp_zero]
  · have h7 : (7 : ℝ) ≤ Real.exp 6 := by
      have h := Real.add_one_le_exp (6 : ℝ)
      linarith
    have hneg : Real.exp (-(6 : ℝ)) = (Real.exp 6)⁻¹ := Real.exp_neg 6
    have hle : (Real.exp 6)⁻¹ ≤ 7⁻¹ := by
      apply inv_anti₀ (by norm_num) h7
    have : Real.exp (-(2 - (-4 : ℝ)) / 1) = Real.exp (-6) := by norm_num
    rw [this, hneg]
    calc (Real.exp 6)⁻¹ ≤ 7⁻¹ := hle
      _ < 9/10 := by norm_num
  · positivity

/-- **C2, failing evaluation.** On a 1×1 lattice every attempt targets the
single cell and keeps its energy, so the inner branch increments `accept`;
the `for`/`else` Metropolis test then fires on the same attempt with
`exp(0) = 1 ≥ 1/2` and increments `accept` a second time.  The returned
"`acceptCount / N²`" is therefore `2`, outside `[0, 1]`. -/
theorem MC_step_ratio_exceeds_one :
    (MC_step (fun _ _ => 0) 1 1 (fun _ _ => 0) (fun _ _ => 0) (fun _ _ => 0)
      (fun _ => 1/2)).1 = 2 ∧ ¬ ((2 : ℝ) ≤ 1) := by
  constructor
  · have hset : setCell (fun _ _ => (0 : ℝ)) 0 0 (0 : ℝ) = fun _ _ => (0 : ℝ) := by
      funext i j
      simp [setCell]
    simp only [MC_step, List.range_succ, List.range_zero, List.foldl_cons,
      List.foldl_nil, List.nil_append, List.cons_append]
    simp only [MC_row, List.range_succ, List.range_zero, List.foldl_cons,
      List.foldl_nil, List.nil_append, List.cons_append]
    simp only [MC_attempt]
    norm_num [hset, one_energy_const, Real.exp_zero]
  · norm_num

/-- **C10.** `initdat` ignores its temperature argument `Ts`: two calls with
the same size and the same random stream but different temperatures return
the identical lattice, and every angle is the corresponding uniform draw
scaled by `2π`. -/
theorem initdat_ignores_temperature :
    (∀ (nmax : ℕ) (Ts Ts' : ℝ) (rand : ℤ → ℤ → ℝ),
      initdat nmax Ts rand = initdat nmax Ts' rand) ∧
    (∀ (nmax : ℕ) (Ts : ℝ) (rand : ℤ → ℤ → ℝ) (i j : ℤ),
      initdat nmax Ts rand i j = rand i j * 2.0 * Real.pi) :=
  ⟨fun _ _ _ _ => rfl, fun _ _ _ _ _ => rfl⟩

end LebwohlLasher
